import Mathlib

/-!
Verification development for the web-fs directory-handle traversal core:
path resolution, directory-chain walking, depth-bounded tree building,
glob traversal and tree rendering, modelled as pure functions over an
inductive directory tree.
-/

namespace WebFs

/-- Entry kinds, mirroring `FileSystemHandle.kind`. -/
inductive EKind where
  | file
  | directory
deriving DecidableEq, Repr

/-- A host filesystem entry: a file or a directory owning child entries,
mirroring `FileSystemFileHandle` / `FileSystemDirectoryHandle`. -/
inductive Entry where
  | file (name : String)
  | dir (name : String) (children : List Entry)
deriving Repr

/-- The `name` property of a handle. -/
def Entry.name : Entry → String
  | .file n => n
  | .dir n _ => n

/-- The `kind` property of a handle. -/
def Entry.kind : Entry → EKind
  | .file _ => .file
  | .dir _ _ => .directory

/-- The child entries produced by `cd.values()`; a file has none. -/
def Entry.children : Entry → List Entry
  | .file _ => []
  | .dir _ cs => cs

theorem Entry.sizeOf_lt_of_mem {e c : Entry} (h : e ∈ c.children) :
    sizeOf e < sizeOf c := by
  cases c with
  | file n => simp [Entry.children] at h
  | dir n cs =>
    simp only [Entry.children] at h
    have := List.sizeOf_lt_of_mem h
    simp only [Entry.dir.sizeOf_spec]
    omega

/-! ### String splitting and joining on the path separator

`strSplit` models JavaScript `String.prototype.split('/')` and `strJoin`
models `Array.prototype.join('/')`, both used by the source. -/

/-- Split a character list on `'/'`; always returns a non-empty list of groups. -/
def splitChars : List Char → List (List Char)
  | [] => [[]]
  | c :: rest =>
    match splitChars rest with
    | [] => [[]]
    | g :: gs => if c = '/' then [] :: g :: gs else (c :: g) :: gs

/-- Model of JS `s.split('/')`. -/
def strSplit (s : String) : List String :=
  (splitChars s.toList).map fun cs => String.mk cs

/-- Model of JS `parts.join('/')`. -/
def strJoin : List String → String
  | [] => ""
  | [x] => x
  | x :: y :: ys => x ++ "/" ++ strJoin (y :: ys)

/-- Model of JS `parts.join('\n')`, used by `treeString`. -/
def strJoinNL : List String → String
  | [] => ""
  | [x] => x
  | x :: y :: ys => x ++ "\n" ++ strJoinNL (y :: ys)

/-- A string free of the path separator (host entry names satisfy this). -/
def noSlashStr (s : String) : Bool := !(s.toList.contains '/')

/-- Concatenation of segments each followed by `"/"`: the shape of the
accumulated `path` argument threaded through `_glob`. -/
def accPath : List String → String
  | [] => ""
  | s :: rest => s ++ "/" ++ accPath rest

/-! ### The external pattern matcher

Modelled from the spec: the external matcher capability (§6) — the
`micromatch` package is not part of this repository.  The spec requires
literal segments, single-segment wildcards, and the recursive marker
`**` matching zero or more directory levels; wildcards never cross a
`/` boundary. -/

/-- Modelled from the spec: single-segment glob matching with literals,
`*` (any run of characters inside a segment, realised as matching the
rest of the pattern against some suffix) and `?` (any one character). -/
def segMatchChars : List Char → List Char → Bool
  | [], cs => cs.isEmpty
  | '*' :: ps2, cs => cs.tails.any fun cs2 => segMatchChars ps2 cs2
  | '?' :: ps2, cs =>
    (match cs with
     | [] => false
     | _ :: cs2 => segMatchChars ps2 cs2)
  | p :: ps2, cs =>
    (match cs with
     | [] => false
     | c :: cs2 => (p == c) && segMatchChars ps2 cs2)

/-- Single-segment glob matching on strings. -/
def segMatch (p c : String) : Bool := segMatchChars p.toList c.toList

/-- Modelled from the spec: glob matching over `/`-separated segments,
parameterised by the single-segment matcher `sm`.  The segment `**`
matches zero or more path segments (the rest of the pattern matches some
suffix of the path); any other pattern segment matches exactly one path
segment via `sm`. -/
def globSegs (sm : String → String → Bool) : List String → List String → Bool
  | [], cs => cs.isEmpty
  | p :: ps2, cs =>
    if p = "**" then
      cs.tails.any fun cs2 => globSegs sm ps2 cs2
    else
      match cs with
      | [] => false
      | c :: cs2 => sm p c && globSegs sm ps2 cs2

/-- Modelled from the spec: `micromatch.isMatch(str, pattern)`. -/
def micromatchIsMatch (str pat : String) : Bool :=
  globSegs segMatch (strSplit pat) (strSplit str)

/-! ### Entry filtering (`_filterEntry`, `toFilterType`) -/

/-- `FilterType` from the source. -/
inductive FilterType where
  | none
  | file
  | dir
  | all
deriving DecidableEq, Repr

/-- `toFilterType` from the source. -/
def toFilterType (file dir : Bool) : FilterType :=
  if file && dir then .all
  else if !file && !dir then .none
  else if file then .file else .dir

/-- `WebFsDirectoryHandle._filterEntry`. -/
def filterEntry (t : FilterType) (entries : List Entry) : List Entry :=
  match t with
  | .none => []
  | _ =>
    entries.filter fun e =>
      match t with
      | .all => true
      | .file => e.kind = EKind.file
      | _ => e.kind = EKind.directory

theorem mem_of_mem_filterEntry {t : FilterType} {es : List Entry} {e : Entry}
    (h : e ∈ filterEntry t es) : e ∈ es := by
  cases t <;> simp only [filterEntry] at h
  · exact absurd h (List.not_mem_nil e)
  all_goals exact List.mem_of_mem_filter h

theorem sizeOf_lt_of_mem_filterEntry {t : FilterType} {c e : Entry}
    (h : e ∈ filterEntry t c.children) : sizeOf e < sizeOf c :=
  Entry.sizeOf_lt_of_mem (mem_of_mem_filterEntry h)

/-! ### The glob traversal engine (`_glob`, `glob`)

The external matcher is a parameter `m`, with `m candidate pattern`
standing for `micromatch.isMatch(candidate, pattern)`. -/

/-- `WebFsDirectoryHandle._glob`. -/
def globAux (m : String → String → Bool) (patterns : List String) (patternIndex : Nat)
    (cd : Entry) (path : String) : List Entry :=
  let dirs := filterEntry .dir cd.children
  let files := filterEntry .file cd.children
  if _hLast : patternIndex = patterns.length - 1 then
    files.filter fun e => m (path ++ e.name) (strJoin patterns)
  else if hStar : patterns.getD patternIndex "" = "**" then
    globAux m patterns (patterns.length - 1) cd path ++
      (dirs.attach.map fun x =>
        globAux m patterns patternIndex x.1 (path ++ x.1.name ++ "/")).flatten
  else
    (((dirs.filter fun e => m e.name (patterns.getD patternIndex "")).attach.map
      fun x =>
        globAux m patterns (patternIndex + 1) x.1 (path ++ x.1.name ++ "/")).flatten)
termination_by (sizeOf cd, patterns.length - patternIndex)
decreasing_by
  · apply Prod.Lex.right'
    · omega
    · have hidx : patternIndex < patterns.length := by
        by_contra hge
        rw [List.getD_eq_default _ _ (by omega)] at hStar
        exact absurd hStar (by decide)
      omega
  · exact Prod.Lex.left _ _ (sizeOf_lt_of_mem_filterEntry x.2)
  · refine Prod.Lex.left _ _ ?_
    have : x.1 ∈ filterEntry FilterType.dir cd.children :=
      List.mem_of_mem_filter x.2
    exact sizeOf_lt_of_mem_filterEntry this

/-- `WebFsDirectoryHandle.glob`.  Wrapping each matched file in a
`WebFsFileHandle` is modelled as the identity (permission granted). -/
def glob (m : String → String → Bool) (pattern : String) (root : Entry) : List Entry :=
  if pattern = "" then []
  else globAux m (strSplit pattern) 0 root ""

/-! ### The depth-bounded tree builder (`_tree`, `_flat`) -/

/-- `WebFsTreeResult`: an entry paired with either `undefined` (no
materialized children) or a list of child nodes. -/
inductive TreeNode where
  | mk (handle : Entry) (children : Option (List TreeNode))

/-- The `handle` field of a tree node. -/
def TreeNode.handle : TreeNode → Entry
  | .mk h _ => h

/-- `WebFsDirectoryHandle._tree`. -/
def treeAux (t : FilterType) (maxDepth depth : Nat) (cd : Entry) : List TreeNode :=
  if t = FilterType.none then []
  else
    (filterEntry t cd.children).attach.map fun x =>
      if x.1.kind = EKind.file || depth = maxDepth then
        TreeNode.mk x.1 Option.none
      else
        TreeNode.mk x.1 (Option.some (treeAux t maxDepth (depth + 1) x.1))
termination_by sizeOf cd
decreasing_by
  exact sizeOf_lt_of_mem_filterEntry x.2

/-- `WebFsDirectoryHandle._flat`: pre-order flattening of a node list. -/
def flat : List TreeNode → List Entry
  | [] => []
  | .mk h Option.none :: rest => h :: flat rest
  | .mk h (Option.some cs) :: rest => h :: (flat cs ++ flat rest)

/-- `WebFsDirectoryHandle.names` (with its defaulted options explicit). -/
def names (file dir : Bool) (depth : Nat) (root : Entry) : List String :=
  if !file && !dir then []
  else (flat (treeAux (toFilterType file dir) depth 1 root)).map Entry.name

/-- `WebFsDirectoryHandle.list`; wrapping each entry in a handle class is
modelled as the identity (permission granted). -/
def listEntries (file dir : Bool) (depth : Nat) (root : Entry) : List Entry :=
  if !file && !dir then []
  else flat (treeAux (toFilterType file dir) depth 1 root)

/-- `WebFsDirectoryHandle.tree`. -/
def tree (file dir : Bool) (depth : Nat) (root : Entry) : TreeNode :=
  TreeNode.mk root (Option.some (treeAux (toFilterType file dir) depth 1 root))

/-! ### The tree renderer (`_toString`, `treeString`) -/

theorem mem_of_mem_enum {α : Type _} {l : List α} {p : Nat × α} (h : p ∈ l.enum) :
    p.2 ∈ l := by
  obtain ⟨i, a⟩ := p
  rw [List.enum_eq_zip_range] at h
  exact (List.of_mem_zip h).2

/-- `WebFsDirectoryHandle._toString`. -/
def toStringAux (t : FilterType) (maxDepth depth : Nat) (cd : Entry) : List String :=
  if t = FilterType.none then [cd.name ++ "/"]
  else
    (cd.name ++ "/") ::
      ((filterEntry t cd.children).enum.attach.map fun x =>
        if x.1.2.kind = EKind.file then
          [(if x.1.1 < (filterEntry t cd.children).length - 1 then "├─" else "└─")
            ++ " " ++ x.1.2.name]
        else if depth = maxDepth then
          [(if x.1.1 < (filterEntry t cd.children).length - 1 then "├─" else "└─")
            ++ " " ++ x.1.2.name ++ "/"]
        else
          (toStringAux t maxDepth (depth + 1) x.1.2).enum.map fun il =>
            (if x.1.1 = (filterEntry t cd.children).length - 1 then
              (if il.1 = 0 then "└─" else "  ")
             else (if il.1 = 0 then "├─" else "│ ")) ++ " " ++ il.2).flatten
termination_by sizeOf cd
decreasing_by
  exact sizeOf_lt_of_mem_filterEntry (mem_of_mem_enum x.2)

/-- `WebFsDirectoryHandle.treeString`. -/
def treeString (file dir : Bool) (depth : Nat) (root : Entry) : String :=
  strJoinNL (toStringAux (toFilterType file dir) depth 1 root)

/-! ### Path resolution and the directory-chain walker

The source computes `path.resolve(p).split(path.sep).slice(1)` with the
Node `path` module (posix behaviour, cwd `"/"`): the path is normalized
against the root (`.` and empty segments dropped, `..` popping), and the
leading root marker is removed by `slice(1)`.  When the path resolves to
the bare root `"/"`, the split yields `["", ""]` and `slice(1)` yields
`[""]`. -/

/-- Normalized segments of `path.resolve(p)` (cwd `"/"`), without the root. -/
def pathResolve (p : String) : List String :=
  (strSplit p).foldl
    (fun acc seg =>
      if seg = "" || seg = "." then acc
      else if seg = ".." then acc.dropLast
      else acc ++ [seg])
    []

/-- `path.resolve(p).split(path.sep).slice(1)` from the source. -/
def resolveSegs (p : String) : List String :=
  match pathResolve p with
  | [] => [""]
  | segs => segs

/-- Host `getFileHandle(name, { create })`: the direct child file of that
name, a freshly created file when absent and `create` is set, and failure
when the name is missing (without `create`) or collides with a directory. -/
def getFileHandle (d : Entry) (name : String) (create : Bool) : Option Entry :=
  match d.children.find? (fun c => c.name = name) with
  | Option.some (Entry.file n) => Option.some (Entry.file n)
  | Option.some (Entry.dir _ _) => Option.none
  | Option.none => if create then Option.some (Entry.file name) else Option.none

/-- `WebFsDirectoryHandle._dirByPath`: descend through the named child
directories via host `getDirectoryHandle(name, { create })` calls.  A
missing name with `create` yields a fresh empty directory; a collision
with a file fails. -/
def dirByPath (root : Entry) (dirNames : List String) (create : Bool) : Option Entry :=
  match dirNames with
  | [] => Option.some root
  | d :: ds =>
    match root.children.find? (fun c => c.name = d) with
    | Option.some (Entry.dir n cs) => dirByPath (Entry.dir n cs) ds create
    | Option.some (Entry.file _) => Option.none
    | Option.none => if create then dirByPath (Entry.dir d []) ds create else Option.none

/-- `WebFsDirectoryHandle.file`: resolve, pop the terminal file name,
reject an empty terminal, walk the directory chain, fetch the file.
Wrapping in `WebFsFileHandle` is modelled as the identity. -/
def fileGet (root : Entry) (filePath : String) (create : Bool) : Option Entry :=
  let directoryNames := resolveSegs filePath
  let fileName := directoryNames.getLast?.getD ""
  if fileName = "" then Option.none
  else
    match dirByPath root directoryNames.dropLast create with
    | Option.none => Option.none
    | Option.some d => getFileHandle d fileName create

/-- `WebFsDirectoryHandle.dir`: resolve, reject the bare-root resolution
(`length == 1 && [0] == ""`), walk the whole chain. -/
def dirGet (root : Entry) (dirPath : String) (create : Bool) : Option Entry :=
  let directoryNames := resolveSegs dirPath
  if directoryNames.length = 1 && directoryNames.getD 0 "" = "" then Option.none
  else dirByPath root directoryNames create

/-- Replace the first child of the given name (host directories hold at
most one child per name). -/
def setChild : List Entry → String → Entry → List Entry
  | [], _, _ => []
  | c :: cs, d, upd => if c.name = d then upd :: cs else c :: setChild cs d upd

/-- Walk `dirNames` below `root` (as `_dirByPath` with `create = false`
does) and apply host `removeEntry(name, { recursive: true })` in the
directory reached: remove its direct child of that name, failing when no
child carries the name.  Returns the updated tree. -/
def removeAt (dirNames : List String) (root : Entry) (name : String) : Option Entry :=
  match dirNames with
  | [] =>
    match root with
    | Entry.file _ => Option.none
    | Entry.dir rn cs =>
      if cs.any (fun c => c.name = name) then
        Option.some (Entry.dir rn (cs.eraseP (fun c => c.name = name)))
      else Option.none
  | d :: ds =>
    match root.children.find? (fun c => c.name = d) with
    | Option.some (Entry.dir n cs) =>
      match removeAt ds (Entry.dir n cs) name with
      | Option.some upd =>
        match root with
        | Entry.dir rn rcs => Option.some (Entry.dir rn (setChild rcs d upd))
        | Entry.file _ => Option.none
      | Option.none => Option.none
    | Option.some (Entry.file _) => Option.none
    | Option.none => Option.none

/-- `WebFsDirectoryHandle.remove`.  Note the source passes the full
`entryPath` string to `removeEntry` on the located parent directory; the
computed `lastEntryName` is only tested for emptiness.  Returns the
success flag together with the (possibly updated) tree. -/
def remove (root : Entry) (entryPath : String) : Bool × Entry :=
  let entryNames := resolveSegs entryPath
  let lastEntryName := entryNames.getLast?.getD ""
  if lastEntryName = "" then (false, root)
  else
    match removeAt entryNames.dropLast root entryPath with
    | Option.some t => (true, t)
    | Option.none => (false, root)

/-! ### Specification-side notions -/

/-- All root-relative file paths (as segment lists, terminal name last)
reachable by directory descent through a child list. -/
def filePathsUnder : List Entry → List (List String)
  | [] => []
  | Entry.file n :: rest => [n] :: filePathsUnder rest
  | Entry.dir d cs :: rest =>
    ((filePathsUnder cs).map fun pf => d :: pf) ++ filePathsUnder rest

/-- Host well-formedness: no entry name on a file path contains `/`. -/
def PathsNoSlash (root : Entry) : Prop :=
  ∀ pf ∈ filePathsUnder root.children, ∀ s ∈ pf, noSlashStr s = true

/-- Checks that a tree-builder output, whose top nodes sit at distance `k`
from the root, keeps every node within distance `d` and materializes no
children at distance `d`. -/
def nodesAtOk (d : Nat) : Nat → List TreeNode → Bool
  | _, [] => true
  | k, TreeNode.mk _ Option.none :: rest => decide (k ≤ d) && nodesAtOk d k rest
  | k, TreeNode.mk _ (Option.some cs) :: rest =>
    decide (k < d) && nodesAtOk d (k + 1) cs && nodesAtOk d k rest

/-- Entries reachable from `cd` by descending only through directory
children: the chains every member of a directory-only traversal must
come from. -/
def dirDescend (cd : Entry) : List Entry :=
  ((filterEntry .dir cd.children).attach.map fun x =>
    x.1 :: dirDescend x.1).flatten
termination_by sizeOf cd
decreasing_by
  exact sizeOf_lt_of_mem_filterEntry x.2

/-! ### Plain unfolding equations for the recursive traversals -/

theorem globAux_eq (m : String → String → Bool) (patterns : List String)
    (patternIndex : Nat) (cd : Entry) (path : String) :
    globAux m patterns patternIndex cd path =
      if patternIndex = patterns.length - 1 then
        (filterEntry .file cd.children).filter fun e =>
          m (path ++ e.name) (strJoin patterns)
      else if patterns.getD patternIndex "" = "**" then
        globAux m patterns (patterns.length - 1) cd path ++
          ((filterEntry .dir cd.children).map fun d =>
            globAux m patterns patternIndex d (path ++ d.name ++ "/")).flatten
      else
        ((((filterEntry .dir cd.children).filter fun e =>
            m e.name (patterns.getD patternIndex "")).map fun d =>
          globAux m patterns (patternIndex + 1) d (path ++ d.name ++ "/")).flatten) := by
  rw [globAux.eq_def]
  simp only [dite_eq_ite]
  rw [List.attach_map_val
      ((filterEntry .dir cd.children).filter fun e =>
        m e.name (patterns.getD patternIndex ""))
      (fun d => globAux m patterns (patternIndex + 1) d (path ++ d.name ++ "/"))]
  rw [List.attach_map_val (filterEntry .dir cd.children)
      (fun d => globAux m patterns patternIndex d (path ++ d.name ++ "/"))]

theorem treeAux_eq (t : FilterType) (maxDepth depth : Nat) (cd : Entry) :
    treeAux t maxDepth depth cd =
      if t = FilterType.none then []
      else
        (filterEntry t cd.children).map fun e =>
          if e.kind = EKind.file || depth = maxDepth then
            TreeNode.mk e Option.none
          else
            TreeNode.mk e (Option.some (treeAux t maxDepth (depth + 1) e)) := by
  rw [treeAux.eq_def]
  rw [List.attach_map_val (filterEntry t cd.children)
      (fun e =>
        if e.kind = EKind.file || depth = maxDepth then TreeNode.mk e Option.none
        else TreeNode.mk e (Option.some (treeAux t maxDepth (depth + 1) e)))]

theorem toStringAux_eq (t : FilterType) (maxDepth depth : Nat) (cd : Entry) :
    toStringAux t maxDepth depth cd =
      if t = FilterType.none then [cd.name ++ "/"]
      else
        (cd.name ++ "/") ::
          (((filterEntry t cd.children).enum.map fun ie =>
            if ie.2.kind = EKind.file then
              [(if ie.1 < (filterEntry t cd.children).length - 1 then "├─" else "└─")
                ++ " " ++ ie.2.name]
            else if depth = maxDepth then
              [(if ie.1 < (filterEntry t cd.children).length - 1 then "├─" else "└─")
                ++ " " ++ ie.2.name ++ "/"]
            else
              (toStringAux t maxDepth (depth + 1) ie.2).enum.map fun il =>
                (if ie.1 = (filterEntry t cd.children).length - 1 then
                  (if il.1 = 0 then "└─" else "  ")
                 else (if il.1 = 0 then "├─" else "│ ")) ++ " " ++ il.2).flatten) := by
  rw [toStringAux.eq_def]
  rw [List.attach_map_val (filterEntry t cd.children).enum
      (fun ie =>
        if ie.2.kind = EKind.file then
          [(if ie.1 < (filterEntry t cd.children).length - 1 then "├─" else "└─")
            ++ " " ++ ie.2.name]
        else if depth = maxDepth then
          [(if ie.1 < (filterEntry t cd.children).length - 1 then "├─" else "└─")
            ++ " " ++ ie.2.name ++ "/"]
        else
          (toStringAux t maxDepth (depth + 1) ie.2).enum.map fun il =>
            (if ie.1 = (filterEntry t cd.children).length - 1 then
              (if il.1 = 0 then "└─" else "  ")
             else (if il.1 = 0 then "├─" else "│ ")) ++ " " ++ il.2)]

theorem dirDescend_eq (cd : Entry) :
    dirDescend cd =
      ((filterEntry .dir cd.children).map fun c => c :: dirDescend c).flatten := by
  rw [dirDescend.eq_def]
  rw [List.attach_map_val (filterEntry .dir cd.children)
      (fun c => c :: dirDescend c)]

/-! ### Basic facts about the embedded operations -/

theorem Entry.sizeOf_pos (e : Entry) : 0 < sizeOf e := by
  cases e <;> simp_arith

theorem kind_of_mem_filterEntry_file {es : List Entry} {e : Entry}
    (h : e ∈ filterEntry .file es) : e.kind = EKind.file := by
  simp only [filterEntry, List.mem_filter] at h
  simpa using h.2

theorem kind_of_mem_filterEntry_dir {es : List Entry} {e : Entry}
    (h : e ∈ filterEntry .dir es) : e.kind = EKind.directory := by
  simp only [filterEntry, List.mem_filter] at h
  simpa using h.2

theorem flat_append (l1 l2 : List TreeNode) :
    flat (l1 ++ l2) = flat l1 ++ flat l2 := by
  induction l1 with
  | nil => simp [flat]
  | cons n rest ih =>
    obtain ⟨h, cs⟩ := n
    cases cs <;> simp [flat, ih]

theorem flat_map_leaf (l : List Entry) :
    flat (l.map fun e => TreeNode.mk e Option.none) = l := by
  induction l with
  | nil => simp [flat]
  | cons e rest ih => simp [flat, ih]

theorem nodesAtOk_append (d k : Nat) (l1 l2 : List TreeNode) :
    nodesAtOk d k (l1 ++ l2) = (nodesAtOk d k l1 && nodesAtOk d k l2) := by
  induction l1 with
  | nil => simp [nodesAtOk]
  | cons n rest ih =>
    obtain ⟨h, cs⟩ := n
    cases cs <;> simp [nodesAtOk, ih, Bool.and_assoc, Bool.and_left_comm, Bool.and_comm]

theorem mem_dirDescend_of_mem_filter {cd x : Entry}
    (hx : x ∈ filterEntry .dir cd.children) : x ∈ dirDescend cd := by
  rw [dirDescend_eq]
  rw [List.mem_flatten]
  exact ⟨x :: dirDescend x, List.mem_map_of_mem _ hx, List.mem_cons_self x _⟩

theorem mem_dirDescend_trans {cd x e : Entry}
    (hx : x ∈ filterEntry .dir cd.children) (he : e ∈ dirDescend x) :
    e ∈ dirDescend cd := by
  rw [dirDescend_eq]
  rw [List.mem_flatten]
  exact ⟨x :: dirDescend x, List.mem_map_of_mem _ hx, List.mem_cons_of_mem x he⟩

/-! ### Depth-bound and prune properties of the tree builder -/

theorem nodesAtOk_treeAux (N : Nat) :
    ∀ cd : Entry, sizeOf cd ≤ N → ∀ t d depth, depth ≤ d →
      nodesAtOk d depth (treeAux t d depth cd) = true := by
  induction N with
  | zero =>
    intro cd hcd
    have := Entry.sizeOf_pos cd
    omega
  | succ N ih =>
    intro cd hcd t d depth hdep
    rw [treeAux_eq]
    by_cases ht : t = FilterType.none
    · simp [ht, nodesAtOk]
    · rw [if_neg ht]
      suffices haux : ∀ es : List Entry, (∀ e ∈ es, sizeOf e ≤ N) →
          nodesAtOk d depth (es.map fun e =>
            if (e.kind = EKind.file || depth = d : Bool) = true then
              TreeNode.mk e Option.none
            else TreeNode.mk e (Option.some (treeAux t d (depth + 1) e))) = true by
        apply haux
        intro e he
        have := sizeOf_lt_of_mem_filterEntry he
        omega
      intro es hsub
      induction es with
      | nil => simp [nodesAtOk]
      | cons e rest ihe =>
        simp only [List.map_cons]
        by_cases hleaf : (e.kind = EKind.file || depth = d : Bool) = true
        · rw [if_pos hleaf]
          simp only [nodesAtOk, Bool.and_eq_true, decide_eq_true_eq]
          exact ⟨hdep, ihe fun x hx => hsub x (List.mem_cons_of_mem e hx)⟩
        · rw [if_neg hleaf]
          have hdd : depth ≠ d := by
            intro hcontra
            exact hleaf (by simp [hcontra])
          simp only [nodesAtOk, Bool.and_eq_true, decide_eq_true_eq]
          refine ⟨⟨by omega, ?_⟩, ihe fun x hx => hsub x (List.mem_cons_of_mem e hx)⟩
          exact ih e (hsub e (List.mem_cons_self e rest)) t d (depth + 1) (by omega)

theorem flat_treeAux_dir_mem (N : Nat) :
    ∀ cd : Entry, sizeOf cd ≤ N → ∀ d depth e, e ∈ flat (treeAux .dir d depth cd) →
      e.kind = EKind.directory ∧ e ∈ dirDescend cd := by
  induction N with
  | zero =>
    intro cd hcd
    have := Entry.sizeOf_pos cd
    omega
  | succ N ih =>
    intro cd hcd d depth e he
    rw [treeAux_eq, if_neg (by decide : ¬(FilterType.dir = FilterType.none))] at he
    revert he
    suffices haux : ∀ es : List Entry, (∀ x ∈ es, x ∈ filterEntry .dir cd.children) →
        e ∈ flat (es.map fun x =>
          if (x.kind = EKind.file || depth = d : Bool) = true then
            TreeNode.mk x Option.none
          else TreeNode.mk x (Option.some (treeAux .dir d (depth + 1) x))) →
        e.kind = EKind.directory ∧ e ∈ dirDescend cd by
      exact haux (filterEntry .dir cd.children) (fun x hx => hx)
    intro es hsub he
    induction es with
    | nil => simp [flat] at he
    | cons x rest ihe =>
      have hxmem : x ∈ filterEntry .dir cd.children :=
        hsub x (List.mem_cons_self x rest)
      have hxkind : x.kind = EKind.directory := kind_of_mem_filterEntry_dir hxmem
      have hxdd : x ∈ dirDescend cd := mem_dirDescend_of_mem_filter hxmem
      have hrest : ∀ y ∈ rest, y ∈ filterEntry .dir cd.children :=
        fun y hy => hsub y (List.mem_cons_of_mem x hy)
      simp only [List.map_cons] at he
      by_cases hleaf : (x.kind = EKind.file || depth = d : Bool) = true
      · rw [if_pos hleaf] at he
        rw [flat] at he
        rcases List.mem_cons.mp he with hex | hex
        · exact hex ▸ ⟨hxkind, hxdd⟩
        · exact ihe hrest hex
      · rw [if_neg hleaf] at he
        rw [flat] at he
        rcases List.mem_cons.mp he with hex | hex
        · exact hex ▸ ⟨hxkind, hxdd⟩
        rcases List.mem_append.mp hex with hex2 | hex2
        · have hsx : sizeOf x ≤ N := by
            have := sizeOf_lt_of_mem_filterEntry hxmem
            omega
          obtain ⟨hk, hdd⟩ := ih x hsx d (depth + 1) e hex2
          exact ⟨hk, mem_dirDescend_trans hxmem hdd⟩
        · exact ihe hrest hex2

/-! ### Claim theorems -/

/-- C9: for the empty pattern string, the glob operation returns an empty
result immediately.  The result is the same for every directory tree and
every matcher, which is the pure rendering of "no host traversal call is
performed": the short-circuit fires before the tree or the matcher is
consulted. -/
theorem glob_empty_pattern_returns_nothing (m : String → String → Bool) (root : Entry) :
    glob m "" root = [] := rfl

/-- C7: for each of the inputs `"."`, `"/"` and `""`, the file getter and
the directory getter return no node (for any `create` flag) and `remove`
reports failure, on every tree: resolution yields an empty terminal
segment and each operation rejects it before touching the tree. -/
theorem degenerate_path_inputs_fail (root : Entry) (create : Bool) :
    (fileGet root "." create = Option.none ∧
     dirGet root "." create = Option.none ∧
     (remove root ".").1 = false) ∧
    (fileGet root "/" create = Option.none ∧
     dirGet root "/" create = Option.none ∧
     (remove root "/").1 = false) ∧
    (fileGet root "" create = Option.none ∧
     dirGet root "" create = Option.none ∧
     (remove root "").1 = false) :=
  ⟨⟨rfl, rfl, rfl⟩, ⟨rfl, rfl, rfl⟩, ⟨rfl, rfl, rfl⟩⟩

/-- The tree showing the bug behind C1: a root containing directory `a`
which contains entry `b`. -/
def removalDemoRoot : Entry := Entry.dir "root" [Entry.dir "a" [Entry.file "b"]]

/-- C1: evaluation of `remove` at the failing input `"a/b"`.  The parent
chain (`a` under the root) exists and the terminal entry `b` exists in
it, yet `remove` returns `false` and leaves the tree unchanged: the
source hands the full `entryPath` (not the popped terminal name) to the
host `removeEntry`, and the located parent has no child named `"a/b"`.
The claim holds for single-segment paths only because there the full
path and the terminal name coincide. -/
theorem remove_full_path_failing_input :
    Entry.dir "a" [Entry.file "b"] ∈ removalDemoRoot.children ∧
    Entry.file "b" ∈ (Entry.dir "a" [Entry.file "b"]).children ∧
    resolveSegs "a/b" = ["a", "b"] ∧
    remove removalDemoRoot "a/b" = (false, removalDemoRoot) := by
  refine ⟨?_, ?_, rfl, rfl⟩ <;> simp [removalDemoRoot, Entry.children]

/-- C5: for every tree, filter and `maxDepth = d ≥ 1`, the tree builder's
output stays within distance `d` of the root and materializes no child
list at distance `d` (`nodesAtOk` checks both, walking the output with
its top nodes at distance 1). -/
theorem tree_builder_depth_bound (root : Entry) (t : FilterType) (d : Nat)
    (hd : 1 ≤ d) : nodesAtOk d 1 (treeAux t d 1 root) = true :=
  nodesAtOk_treeAux (sizeOf root) root le_rfl t d 1 hd

/-- Witness for the depth-bound theorem at `d = 1` over a two-level tree
whose depth-1 directory is non-empty. -/
theorem tree_builder_depth_bound_witness :
    1 ≤ 1 ∧
    nodesAtOk 1 1 (treeAux FilterType.all 1 1
      (Entry.dir "r" [Entry.file "x", Entry.dir "s" [Entry.file "y"]])) = true :=
  ⟨by decide,
   tree_builder_depth_bound (Entry.dir "r" [Entry.file "x", Entry.dir "s" [Entry.file "y"]])
     FilterType.all 1 (by decide)⟩

/-- C6: with the directory-only filter, the flattened output of the
public listing operation contains zero `File` entries — every member is a
directory — and every member lies on a chain of directories each of which
passed the filter (`dirDescend`): an excluded entry's subtree is pruned,
never merely trimmed, so no descendant of an excluded entry can appear. -/
theorem dir_only_filter_prunes (root : Entry) (d : Nat) :
    (listEntries false true d root).Forall
      (fun e => e.kind = EKind.directory ∧ e ∈ dirDescend root) := by
  rw [List.forall_iff_forall_mem]
  intro e he
  have htf : toFilterType false true = FilterType.dir := rfl
  simp only [listEntries, htf] at he
  norm_num at he
  exact flat_treeAux_dir_mem (sizeOf root) root le_rfl d 1 e he

/-- C10: with the file-only filter the tree builder keeps exactly the
root's direct file children as leaves — directories are filtered away
before any recursion — so `names`, `list` and `tree` return the direct
files only and the depth parameter has no effect. -/
theorem file_only_filter_ignores_depth (root : Entry) (d : Nat) :
    treeAux FilterType.file d 1 root =
      (filterEntry FilterType.file root.children).map
        (fun e => TreeNode.mk e Option.none) ∧
    names true false d root =
      (filterEntry FilterType.file root.children).map Entry.name ∧
    listEntries true false d root = filterEntry FilterType.file root.children ∧
    tree true false d root =
      TreeNode.mk root (Option.some ((filterEntry FilterType.file root.children).map
        (fun e => TreeNode.mk e Option.none))) := by
  have htf : toFilterType true false = FilterType.file := rfl
  have hmain : treeAux FilterType.file d 1 root =
      (filterEntry FilterType.file root.children).map
        (fun e => TreeNode.mk e Option.none) := by
    rw [treeAux_eq, if_neg (by decide : ¬(FilterType.file = FilterType.none))]
    apply List.map_congr_left
    intro e he
    have hk : e.kind = EKind.file := kind_of_mem_filterEntry_file he
    simp [hk]
  refine ⟨hmain, ?_, ?_, ?_⟩
  · simp [names, htf, hmain, flat_map_leaf]
  · simp [listEntries, htf, hmain, flat_map_leaf]
  · simp [tree, htf, hmain]

/-- The two-level demonstration tree of C8: `root/{a.txt, sub/{b.txt}}`
in host enumeration order. -/
def renderDemoRoot : Entry :=
  Entry.dir "root" [Entry.file "a.txt", Entry.dir "sub" [Entry.file "b.txt"]]

/-- C8: rendering `root/{a.txt, sub/{b.txt}}` with the `all` filter at
`maxDepth = 2` produces exactly the lines `root/`, `├─ a.txt`, `└─ sub/`
and `   └─ b.txt` in that order (the last line carries the blank
continuation of the last sibling `sub`), and `treeString` joins them
with newlines. -/
theorem render_two_level_tree :
    toStringAux FilterType.all 2 1 renderDemoRoot =
      ["root/", "├─ a.txt", "└─ sub/", "   └─ b.txt"] ∧
    treeString true true 2 renderDemoRoot =
      "root/\n├─ a.txt\n└─ sub/\n   └─ b.txt" := by
  have h1 : toStringAux FilterType.all 2 1 renderDemoRoot =
      ["root/", "├─ a.txt", "└─ sub/", "   └─ b.txt"] := by
    simp [toStringAux_eq, renderDemoRoot, filterEntry, Entry.children, Entry.kind,
      Entry.name, List.enum, List.enumFrom]
  have htf : toFilterType true true = FilterType.all := rfl
  refine ⟨h1, ?_⟩
  rw [treeString, htf, h1]
  rfl

/-- The tree of C4: files `src/a.ts`, `src/lib/b.ts`, `a.ts` at the root,
and `src/c.md`. -/
def globDemoRoot : Entry := Entry.dir "root"
  [Entry.dir "src"
    [Entry.file "a.ts", Entry.dir "lib" [Entry.file "b.ts"], Entry.file "c.md"],
   Entry.file "a.ts"]

/-- C4: over the demonstration tree, pattern `"**/*.ts"` returns exactly
the files at `a.ts` (root level, from the zero-level reading of `**`),
`src/a.ts` (one level) and `src/lib/b.ts` (two levels), and excludes
`src/c.md`; the second conjunct checks that these three are exactly the
reachable file paths whose `/`-joined form matches the pattern. -/
theorem glob_recursive_marker_example :
    glob micromatchIsMatch "**/*.ts" globDemoRoot =
      [Entry.file "a.ts", Entry.file "a.ts", Entry.file "b.ts"] ∧
    (filePathsUnder globDemoRoot.children).filter
      (fun pf => micromatchIsMatch (strJoin pf) "**/*.ts") =
      [["src", "a.ts"], ["src", "lib", "b.ts"], ["a.ts"]] := by
  constructor
  · have hsplit : strSplit "**/*.ts" = ["**", "*.ts"] := by decide
    have hlib1 : globAux micromatchIsMatch ["**", "*.ts"] 1
        (Entry.dir "lib" [Entry.file "b.ts"]) "src/lib/" = [Entry.file "b.ts"] := by
      rw [globAux_eq]
      simp +decide [filterEntry, Entry.children, Entry.kind, Entry.name]
    have hlib0 : globAux micromatchIsMatch ["**", "*.ts"] 0
        (Entry.dir "lib" [Entry.file "b.ts"]) "src/lib/" = [Entry.file "b.ts"] := by
      rw [globAux_eq]
      simp +decide [filterEntry, Entry.children, Entry.kind, Entry.name, hlib1]
    have hsrc1 : globAux micromatchIsMatch ["**", "*.ts"] 1
        (Entry.dir "src"
          [Entry.file "a.ts", Entry.dir "lib" [Entry.file "b.ts"], Entry.file "c.md"])
        "src/" = [Entry.file "a.ts"] := by
      rw [globAux_eq]
      simp +decide [filterEntry, Entry.children, Entry.kind, Entry.name]
    have hsrc0 : globAux micromatchIsMatch ["**", "*.ts"] 0
        (Entry.dir "src"
          [Entry.file "a.ts", Entry.dir "lib" [Entry.file "b.ts"], Entry.file "c.md"])
        "src/" = [Entry.file "a.ts", Entry.file "b.ts"] := by
      rw [globAux_eq]
      simp +decide [filterEntry, Entry.children, Entry.kind, Entry.name, hsrc1, hlib0]
    have hroot1 : globAux micromatchIsMatch ["**", "*.ts"] 1
        (Entry.dir "root"
          [Entry.dir "src"
            [Entry.file "a.ts", Entry.dir "lib" [Entry.file "b.ts"], Entry.file "c.md"],
           Entry.file "a.ts"]) "" = [Entry.file "a.ts"] := by
      rw [globAux_eq]
      simp +decide [filterEntry, Entry.children, Entry.kind, Entry.name]
    rw [glob, if_neg (by decide : ¬("**/*.ts" = "")), hsplit]
    rw [globAux_eq]
    simp +decide [globDemoRoot, filterEntry, Entry.children, Entry.kind, Entry.name,
      hroot1, hsrc0]
  · simp only [filePathsUnder, globDemoRoot, Entry.children]
    decide

/-! ### Splitting and joining: inverse properties -/

/-- Joining character groups with `'/'`, the char-level mirror of `strJoin`. -/
def joinChars : List (List Char) → List Char
  | [] => []
  | [x] => x
  | x :: y :: ys => x ++ '/' :: joinChars (y :: ys)

theorem splitChars_ne_nil (cs : List Char) : splitChars cs ≠ [] := by
  cases cs with
  | nil => simp [splitChars]
  | cons c rest =>
    rw [splitChars]
    rcases h : splitChars rest with _ | ⟨g, gs⟩
    · simp
    · by_cases hc : c = '/' <;> simp [hc]

theorem splitChars_cons (c : Char) (rest : List Char) :
    splitChars (c :: rest) =
      if c = '/' then [] :: splitChars rest
      else (c :: (splitChars rest).headD []) :: (splitChars rest).tail := by
  rw [splitChars]
  rcases hs : splitChars rest with _ | ⟨g0, gs⟩
  · exact absurd hs (splitChars_ne_nil rest)
  · by_cases hc : c = '/' <;> simp [hc]

theorem joinChars_cons (x : List Char) {l : List (List Char)} (hl : l ≠ []) :
    joinChars (x :: l) = x ++ '/' :: joinChars l := by
  cases l with
  | nil => exact absurd rfl hl
  | cons y ys => rfl

theorem noSlash_of_mem_splitChars {cs : List Char} {g : List Char}
    (h : g ∈ splitChars cs) : '/' ∉ g := by
  induction cs generalizing g with
  | nil =>
    simp [splitChars] at h
    simp [h]
  | cons c rest ih =>
    obtain ⟨g0, gs, hs⟩ := List.exists_cons_of_ne_nil (splitChars_ne_nil rest)
    rw [splitChars_cons] at h
    by_cases hc : c = '/'
    · rw [if_pos hc] at h
      rcases List.mem_cons.mp h with hg | hg
      · simp [hg]
      · exact ih hg
    · rw [if_neg hc] at h
      rcases List.mem_cons.mp h with hg | hg
      · subst hg
        intro hmem
        rcases List.mem_cons.mp hmem with h1 | h1
        · exact hc h1.symm
        · refine ih (g := (splitChars rest).headD []) ?_ h1
          rw [hs]
          exact List.mem_cons_self g0 gs
      · refine ih (List.mem_of_mem_tail hg)

theorem joinChars_splitChars (cs : List Char) : joinChars (splitChars cs) = cs := by
  induction cs with
  | nil => rfl
  | cons c rest ih =>
    obtain ⟨g0, gs, hs⟩ := List.exists_cons_of_ne_nil (splitChars_ne_nil rest)
    rw [splitChars_cons]
    by_cases hc : c = '/'
    · rw [if_pos hc, joinChars_cons [] (splitChars_ne_nil rest), hc]
      simpa using ih
    · rw [if_neg hc, hs]
      simp only [List.headD_cons, List.tail_cons]
      rw [hs] at ih
      cases gs with
      | nil => simpa [joinChars] using congrArg (c :: ·) ih
      | cons g1 gs2 =>
        rw [joinChars_cons _ (by simp), List.cons_append]
        rw [joinChars_cons _ (by simp)] at ih
        simpa using ih

theorem splitChars_of_noSlash {cs : List Char} (h : '/' ∉ cs) :
    splitChars cs = [cs] := by
  induction cs with
  | nil => rfl
  | cons c rest ih =>
    have hc : c ≠ '/' := fun hx => h (hx ▸ List.mem_cons_self c rest)
    have hr : '/' ∉ rest := fun hx => h (List.mem_cons_of_mem c hx)
    rw [splitChars_cons, if_neg hc, ih hr]
    simp

theorem splitChars_append_slash {xs : List Char} (ys : List Char) (h : '/' ∉ xs) :
    splitChars (xs ++ '/' :: ys) = xs :: splitChars ys := by
  induction xs with
  | nil =>
    rw [List.nil_append, splitChars_cons, if_pos rfl]
  | cons x xs ih =>
    have hx : x ≠ '/' := fun hx => h (hx ▸ List.mem_cons_self x xs)
    have hr : '/' ∉ xs := fun hm => h (List.mem_cons_of_mem x hm)
    rw [List.cons_append, splitChars_cons, ih hr, if_neg hx]
    simp

theorem splitChars_joinChars {l : List (List Char)} (hne : l ≠ [])
    (h : ∀ g ∈ l, '/' ∉ g) : splitChars (joinChars l) = l := by
  induction l with
  | nil => exact absurd rfl hne
  | cons x ys ih =>
    cases ys with
    | nil => exact splitChars_of_noSlash (h x (List.mem_cons_self x []))
    | cons y ys2 =>
      rw [joinChars_cons x (by simp), splitChars_append_slash _ (h x (List.mem_cons_self x _))]
      rw [ih (by simp) fun g hg => h g (List.mem_cons_of_mem x hg)]

/-! ### String-level bridges between split, join and path accumulation -/

theorem String.mk_append_mk (a b : List Char) :
    String.mk a ++ String.mk b = String.mk (a ++ b) := rfl

theorem noSlashStr_iff {s : String} : noSlashStr s = true ↔ '/' ∉ s.toList := by
  simp [noSlashStr]

theorem strSplit_ne_nil (s : String) : strSplit s ≠ [] := by
  simp only [strSplit, ne_eq, List.map_eq_nil_iff]
  exact splitChars_ne_nil s.toList

theorem noSlash_of_mem_strSplit {s q : String} (h : q ∈ strSplit s) :
    noSlashStr q = true := by
  simp only [strSplit, List.mem_map] at h ⊢
  obtain ⟨g, hg, rfl⟩ := h
  rw [noSlashStr_iff]
  exact noSlash_of_mem_splitChars hg

theorem strJoin_map_mk (l : List (List Char)) :
    strJoin (l.map String.mk) = String.mk (joinChars l) := by
  induction l with
  | nil => rfl
  | cons x ys ih =>
    cases ys with
    | nil => rfl
    | cons y ys2 =>
      rw [List.map_cons, List.map_cons, joinChars_cons x (by simp)]
      have hjoin : strJoin (String.mk x :: String.mk y :: ys2.map String.mk) =
          String.mk x ++ "/" ++ strJoin (String.mk y :: ys2.map String.mk) := rfl
      rw [hjoin]
      rw [List.map_cons] at ih
      rw [ih]
      rw [show ("/" : String) = String.mk ['/'] by decide]
      rw [String.mk_append_mk, String.mk_append_mk]
      apply congrArg String.mk
      simp

theorem strJoin_strSplit (s : String) : strJoin (strSplit s) = s := by
  rw [strSplit, strJoin_map_mk, joinChars_splitChars]
  cases s
  rfl

theorem strSplit_strJoin {segs : List String} (hne : segs ≠ [])
    (h : ∀ q ∈ segs, noSlashStr q = true) : strSplit (strJoin segs) = segs := by
  have hrepr : segs = (segs.map String.data).map String.mk := by
    rw [List.map_map]
    conv_lhs => rw [show segs = segs.map id from (List.map_id segs).symm]
    rfl
  rw [hrepr, strJoin_map_mk, strSplit]
  have htl : (String.mk (joinChars (segs.map String.data))).toList =
      joinChars (segs.map String.data) := rfl
  rw [htl, splitChars_joinChars]
  · simp [hne]
  · intro g hg
    rw [List.mem_map] at hg
    obtain ⟨q, hq, rfl⟩ := hg
    have := noSlashStr_iff.mp (h q hq)
    exact this

theorem strJoin_cons (x : String) {l : List String} (hl : l ≠ []) :
    strJoin (x :: l) = x ++ "/" ++ strJoin l := by
  cases l with
  | nil => exact absurd rfl hl
  | cons y ys => rfl

theorem accPath_append (xs ys : List String) :
    accPath (xs ++ ys) = accPath xs ++ accPath ys := by
  induction xs with
  | nil => simp [accPath]
  | cons x xs ih => simp [accPath, ih, String.append_assoc]

theorem accPath_strJoin (ds : List String) (n : String) :
    accPath ds ++ n = strJoin (ds ++ [n]) := by
  induction ds with
  | nil => simp [accPath, strJoin]
  | cons d ds2 ih =>
    rw [List.cons_append, strJoin_cons d (by simp), ← ih, accPath]
    simp [String.append_assoc]

theorem getD_append_self (xs ys : List String) (d : String) :
    (xs ++ ys).getD xs.length d = ys.getD 0 d := by
  induction xs with
  | nil => simp
  | cons x xs ih => simpa using ih

/-! ### Properties of the segment-level matcher -/

theorem globSegs_nil (sm : String → String → Bool) (cs : List String) :
    globSegs sm [] cs = cs.isEmpty := by
  rw [globSegs]

theorem globSegs_star_cons (sm : String → String → Bool) (ps cs : List String) :
    globSegs sm ("**" :: ps) cs = cs.tails.any fun cs2 => globSegs sm ps cs2 := by
  cases cs with
  | nil => simp [globSegs]
  | cons c cs2 => simp [globSegs]

theorem globSegs_cons_nil {p : String} (sm : String → String → Bool)
    (ps : List String) (hp : p ≠ "**") : globSegs sm (p :: ps) [] = false := by
  rw [globSegs, if_neg hp]

theorem globSegs_cons_cons {p : String} (sm : String → String → Bool)
    (ps : List String) (c : String) (cs : List String) (hp : p ≠ "**") :
    globSegs sm (p :: ps) (c :: cs) = (sm p c && globSegs sm ps cs) := by
  rw [globSegs, if_neg hp]

theorem globSegs_nil_right {sm : String → String → Bool} {ps : List String} :
    globSegs sm ps [] = true ↔ ∀ q ∈ ps, q = "**" := by
  induction ps with
  | nil => simp [globSegs_nil]
  | cons p ps2 ih =>
    by_cases hp : p = "**"
    · subst hp
      rw [globSegs_star_cons]
      simp [ih]
    · rw [globSegs_cons_nil _ _ hp]
      simp [hp]

theorem globSegs_append_of_forall₂ {sm : String → String → Bool}
    {ps1 cs1 : List String} (h1 : List.Forall₂ (fun p c => sm p c = true) ps1 cs1)
    {ps2 cs2 : List String} (h2 : globSegs sm ps2 cs2 = true) :
    globSegs sm (ps1 ++ ps2) (cs1 ++ cs2) = true := by
  induction h1 with
  | nil => simpa using h2
  | @cons p c ps cs hpc htail ih =>
    by_cases hp : p = "**"
    · subst hp
      rw [List.cons_append, List.cons_append, globSegs_star_cons]
      rw [List.any_eq_true]
      refine ⟨cs ++ cs2, ?_, ?_⟩
      · rw [List.mem_tails]
        exact ⟨[c], rfl⟩
      · exact ih
    · rw [List.cons_append, List.cons_append, globSegs_cons_cons _ _ _ _ hp]
      simp [hpc, ih]

theorem strSplit_of_noSlash {q : String} (h : noSlashStr q = true) :
    strSplit q = [q] := by
  rw [strSplit, splitChars_of_noSlash (noSlashStr_iff.mp h)]
  cases q
  rfl

theorem micromatch_single_segment {q c : String} (hq : noSlashStr q = true)
    (hc : noSlashStr c = true) (hstar : q ≠ "**") :
    micromatchIsMatch c q = segMatch q c := by
  rw [micromatchIsMatch, strSplit_of_noSlash hq, strSplit_of_noSlash hc]
  rw [globSegs_cons_cons _ _ _ _ hstar, globSegs_nil]
  simp

theorem micromatch_strJoin_bridge {segs ps : List String}
    (hsegne : segs ≠ []) (hsegs : ∀ q ∈ segs, noSlashStr q = true)
    (hpsne : ps ≠ []) (hps : ∀ q ∈ ps, noSlashStr q = true) :
    micromatchIsMatch (strJoin segs) (strJoin ps) = globSegs segMatch ps segs := by
  rw [micromatchIsMatch, strSplit_strJoin hpsne hps, strSplit_strJoin hsegne hsegs]

/-! ### Membership facts about reachable file paths -/

theorem filePathsUnder_ne_nil {cs : List Entry} {pf : List String}
    (h : pf ∈ filePathsUnder cs) : pf ≠ [] := by
  induction cs generalizing pf with
  | nil => simp [filePathsUnder] at h
  | cons x rest ih =>
    cases x with
    | file n =>
      rw [filePathsUnder] at h
      rcases List.mem_cons.mp h with hp | hp
      · simp [hp]
      · exact ih hp
    | dir d dcs =>
      rw [filePathsUnder] at h
      rcases List.mem_append.mp h with hp | hp
      · obtain ⟨pf2, _, rfl⟩ := List.mem_map.mp hp
        simp
      · exact ih hp

theorem filePathsUnder_file_mem {cs : List Entry} {n : String}
    (h : Entry.file n ∈ cs) : [n] ∈ filePathsUnder cs := by
  induction cs with
  | nil => simp at h
  | cons x rest ih =>
    rcases List.mem_cons.mp h with hx | hx
    · rw [← hx, filePathsUnder]
      exact List.mem_cons_self _ _
    · cases x with
      | file m =>
        rw [filePathsUnder]
        exact List.mem_cons_of_mem _ (ih hx)
      | dir d dcs =>
        rw [filePathsUnder]
        exact List.mem_append_right _ (ih hx)

theorem filePathsUnder_dir_mem {cs : List Entry} {d : String} {dcs : List Entry}
    {pf : List String} (h : Entry.dir d dcs ∈ cs) (hpf : pf ∈ filePathsUnder dcs) :
    (d :: pf) ∈ filePathsUnder cs := by
  induction cs with
  | nil => simp at h
  | cons x rest ih =>
    rcases List.mem_cons.mp h with hx | hx
    · rw [← hx, filePathsUnder]
      exact List.mem_append_left _ (List.mem_map_of_mem _ hpf)
    · cases x with
      | file m =>
        rw [filePathsUnder]
        exact List.mem_cons_of_mem _ (ih hx)
      | dir d2 dcs2 =>
        rw [filePathsUnder]
        exact List.mem_append_right _ (ih hx)

theorem filePathsUnder_singleton_inv {cs : List Entry} {n : String}
    (h : [n] ∈ filePathsUnder cs) : Entry.file n ∈ cs := by
  induction cs with
  | nil => simp [filePathsUnder] at h
  | cons x rest ih =>
    cases x with
    | file m =>
      rw [filePathsUnder] at h
      rcases List.mem_cons.mp h with hp | hp
      · rw [List.cons.injEq] at hp
        rw [hp.1]
        exact List.mem_cons_self _ _
      · exact List.mem_cons_of_mem _ (ih hp)
    | dir d dcs =>
      rw [filePathsUnder] at h
      rcases List.mem_append.mp h with hp | hp
      · obtain ⟨pf2, hpf2, heq⟩ := List.mem_map.mp hp
        have : pf2 = [] := by
          have := congrArg List.tail heq
          simpa using this
        exact absurd this (filePathsUnder_ne_nil hpf2)
      · exact List.mem_cons_of_mem _ (ih hp)

theorem filePathsUnder_cons_inv {cs : List Entry} {d : String} {pf : List String}
    (h : (d :: pf) ∈ filePathsUnder cs) (hne : pf ≠ []) :
    ∃ dcs, Entry.dir d dcs ∈ cs ∧ pf ∈ filePathsUnder dcs := by
  induction cs with
  | nil => simp [filePathsUnder] at h
  | cons x rest ih =>
    cases x with
    | file m =>
      rw [filePathsUnder] at h
      rcases List.mem_cons.mp h with hp | hp
      · rw [List.cons.injEq] at hp
        exact absurd hp.2 hne
      · obtain ⟨dcs, hd, hppf⟩ := ih hp
        exact ⟨dcs, List.mem_cons_of_mem _ hd, hppf⟩
    | dir d2 dcs2 =>
      rw [filePathsUnder] at h
      rcases List.mem_append.mp h with hp | hp
      · obtain ⟨pf2, hpf2, heq⟩ := List.mem_map.mp hp
        rw [List.cons.injEq] at heq
        exact ⟨dcs2, heq.1 ▸ List.mem_cons_self _ _, heq.2 ▸ hpf2⟩
      · obtain ⟨dcs, hd, hppf⟩ := ih hp
        exact ⟨dcs, List.mem_cons_of_mem _ hd, hppf⟩

theorem filterEntry_file_eq (cs : List Entry) :
    filterEntry .file cs = cs.filter fun e => decide (e.kind = EKind.file) := rfl

theorem filterEntry_dir_eq (cs : List Entry) :
    filterEntry .dir cs = cs.filter fun e => decide (e.kind = EKind.directory) := rfl

theorem mem_filterEntry_file_of_file {cs : List Entry} {n : String}
    (h : Entry.file n ∈ cs) : Entry.file n ∈ filterEntry .file cs := by
  rw [filterEntry_file_eq, List.mem_filter]
  exact ⟨h, by simp [Entry.kind]⟩

theorem mem_filterEntry_dir_of_dir {cs : List Entry} {d : String} {dcs : List Entry}
    (h : Entry.dir d dcs ∈ cs) : Entry.dir d dcs ∈ filterEntry .dir cs := by
  rw [filterEntry_dir_eq, List.mem_filter]
  exact ⟨h, by simp [Entry.kind]⟩

theorem eq_file_of_mem_filterEntry_file {cs : List Entry} {e : Entry}
    (h : e ∈ filterEntry .file cs) : ∃ n, e = Entry.file n ∧ Entry.file n ∈ cs := by
  have hk := kind_of_mem_filterEntry_file h
  have hm := mem_of_mem_filterEntry h
  cases e with
  | file n => exact ⟨n, rfl, hm⟩
  | dir d dcs => simp [Entry.kind] at hk

theorem eq_dir_of_mem_filterEntry_dir {cs : List Entry} {e : Entry}
    (h : e ∈ filterEntry .dir cs) :
    ∃ d dcs, e = Entry.dir d dcs ∧ Entry.dir d dcs ∈ cs := by
  have hk := kind_of_mem_filterEntry_dir h
  have hm := mem_of_mem_filterEntry h
  cases e with
  | file n => simp [Entry.kind] at hk
  | dir d dcs => exact ⟨d, dcs, rfl, hm⟩

/-! ### Soundness of the glob traversal: everything returned is a file
whose accumulated path passes the full-pattern test -/

theorem globAux_sound (m : String → String → Bool) (patterns : List String) (N : Nat) :
    ∀ cd : Entry, sizeOf cd ≤ N → ∀ i p e, e ∈ globAux m patterns i cd p →
      ∃ ds n, e = Entry.file n ∧ (ds ++ [n]) ∈ filePathsUnder cd.children ∧
        m (p ++ accPath ds ++ n) (strJoin patterns) = true := by
  induction N with
  | zero =>
    intro cd hcd
    have := Entry.sizeOf_pos cd
    omega
  | succ N ih =>
    intro cd hcd i p e he
    rw [globAux_eq] at he
    by_cases hlast : i = patterns.length - 1
    · rw [if_pos hlast, List.mem_filter] at he
      obtain ⟨hmem, hpred⟩ := he
      obtain ⟨n, rfl, hn⟩ := eq_file_of_mem_filterEntry_file hmem
      refine ⟨[], n, rfl, filePathsUnder_file_mem hn, ?_⟩
      simpa [accPath, Entry.name] using hpred
    · rw [if_neg hlast] at he
      by_cases hstar : patterns.getD i "" = "**"
      · rw [if_pos hstar] at he
        rcases List.mem_append.mp he with hz | hd
        · rw [globAux_eq, if_pos rfl, List.mem_filter] at hz
          obtain ⟨hmem, hpred⟩ := hz
          obtain ⟨n, rfl, hn⟩ := eq_file_of_mem_filterEntry_file hmem
          refine ⟨[], n, rfl, filePathsUnder_file_mem hn, ?_⟩
          simpa [accPath, Entry.name] using hpred
        · rw [List.mem_flatten] at hd
          obtain ⟨l, hl, hel⟩ := hd
          rw [List.mem_map] at hl
          obtain ⟨dentry, hdmem, rfl⟩ := hl
          obtain ⟨dn, dcs, rfl, hdin⟩ := eq_dir_of_mem_filterEntry_dir hdmem
          have hsz : sizeOf (Entry.dir dn dcs) ≤ N := by
            have := sizeOf_lt_of_mem_filterEntry hdmem
            omega
          obtain ⟨ds, n, rfl, hpath, hmatch⟩ := ih _ hsz i _ _ hel
          refine ⟨dn :: ds, n, rfl, filePathsUnder_dir_mem hdin hpath, ?_⟩
          simpa [accPath, Entry.name, String.append_assoc] using hmatch
      · rw [if_neg hstar, List.mem_flatten] at he
        obtain ⟨l, hl, hel⟩ := he
        rw [List.mem_map] at hl
        obtain ⟨dentry, hdmem, rfl⟩ := hl
        have hdmem2 : dentry ∈ filterEntry .dir cd.children :=
          List.mem_of_mem_filter hdmem
        obtain ⟨dn, dcs, rfl, hdin⟩ := eq_dir_of_mem_filterEntry_dir hdmem2
        have hsz : sizeOf (Entry.dir dn dcs) ≤ N := by
          have := sizeOf_lt_of_mem_filterEntry hdmem2
          omega
        obtain ⟨ds, n, rfl, hpath, hmatch⟩ := ih _ hsz (i + 1) _ _ hel
        refine ⟨dn :: ds, n, rfl, filePathsUnder_dir_mem hdin hpath, ?_⟩
        simpa [accPath, Entry.name, String.append_assoc] using hmatch

/-! ### Completeness of the glob traversal -/

/-- Once the current segment is a non-final `**`, every reachable file
whose accumulated path passes the full-pattern test is returned: all
subdirectories are descended (the marker is not consumed) and every
directory's direct files are tested via the jump to the last segment. -/
theorem globAux_complete_star (m : String → String → Bool) (patterns : List String)
    (i : Nat) (hstar : patterns.getD i "" = "**") (hlast : i ≠ patterns.length - 1) :
    ∀ ds : List String, ∀ cd p n,
      (ds ++ [n]) ∈ filePathsUnder cd.children →
      m (p ++ accPath ds ++ n) (strJoin patterns) = true →
      Entry.file n ∈ globAux m patterns i cd p := by
  intro ds
  induction ds with
  | nil =>
    intro cd p n hpath hmatch
    rw [globAux_eq, if_neg hlast, if_pos hstar]
    apply List.mem_append_left
    rw [globAux_eq, if_pos rfl, List.mem_filter]
    have hfile : Entry.file n ∈ cd.children :=
      filePathsUnder_singleton_inv (by simpa using hpath)
    refine ⟨mem_filterEntry_file_of_file hfile, ?_⟩
    simpa [accPath, Entry.name] using hmatch
  | cons d ds2 ihd =>
    intro cd p n hpath hmatch
    obtain ⟨dcs, hdin, hsub⟩ :=
      filePathsUnder_cons_inv (by simpa using hpath) (by simp)
    rw [globAux_eq, if_neg hlast, if_pos hstar]
    apply List.mem_append_right
    rw [List.mem_flatten]
    refine ⟨globAux m patterns i (Entry.dir d dcs)
      (p ++ (Entry.dir d dcs).name ++ "/"), ?_, ?_⟩
    · exact List.mem_map_of_mem _ (mem_filterEntry_dir_of_dir hdin)
    · apply ihd _ _ _ hsub
      simpa [accPath, Entry.name, String.append_assoc] using hmatch

theorem forall₂_append_single {α β : Type _} {R : α → β → Prop} :
    ∀ {l1 : List α} {l2 : List β}, List.Forall₂ R l1 l2 → ∀ {a : α} {b : β},
      R a b → List.Forall₂ R (l1 ++ [a]) (l2 ++ [b]) := by
  intro l1 l2 h
  induction h with
  | nil =>
    intro a b hab
    simpa using List.Forall₂.cons hab List.Forall₂.nil
  | cons hxy htail ih =>
    intro a b hab
    exact List.Forall₂.cons hxy (ih hab)

/-- Master completeness of `_glob` under the modelled matcher, for
patterns whose final segment is not `**`.  The state is a pattern prefix
`pre` already matched pairwise against the directory names `es` walked so
far (non-`**` segments only), and the remaining suffix `suf` matched
against the remaining relative path `ds ++ [n]` of a reachable file. -/
theorem globAux_complete (patterns : List String)
    (hps : ∀ q ∈ patterns, noSlashStr q = true)
    (hlastne : patterns.getLast?.getD "" ≠ "**") (N : Nat) :
    ∀ cd : Entry, sizeOf cd ≤ N →
    ∀ pre suf es ds n,
      patterns = pre ++ suf →
      suf ≠ [] →
      List.Forall₂ (fun q s => segMatch q s = true) pre es →
      (∀ s ∈ es, noSlashStr s = true) →
      (∀ s ∈ ds, noSlashStr s = true) →
      noSlashStr n = true →
      (ds ++ [n]) ∈ filePathsUnder cd.children →
      globSegs segMatch suf (ds ++ [n]) = true →
      Entry.file n ∈ globAux micromatchIsMatch patterns pre.length cd (accPath es) := by
  induction N with
  | zero =>
    intro cd hcd
    have := Entry.sizeOf_pos cd
    omega
  | succ N ih =>
    intro cd hcd pre suf es ds n hpat hsufne hfa hesns hdsns hnns hpath hmatch
    obtain ⟨q, suf2, rfl⟩ := List.exists_cons_of_ne_nil hsufne
    have hlen : patterns.length = pre.length + suf2.length + 1 := by
      rw [hpat]
      simp
      omega
    have hgetD : patterns.getD pre.length "" = q := by
      rw [hpat, getD_append_self]
      rfl
    have hesne : es.length = pre.length := (List.Forall₂.length_eq hfa).symm
    have hqps : q ∈ patterns := by
      rw [hpat]
      exact List.mem_append_right _ (List.mem_cons_self q suf2)
    cases suf2 with
    | nil =>
      have hqne : q ≠ "**" := by
        intro hq
        apply hlastne
        rw [hpat, List.getLast?_concat]
        simpa using hq
      simp only [List.length_nil] at hlen
      have hlast : pre.length = patterns.length - 1 := by omega
      cases ds with
      | nil =>
        simp only [List.nil_append] at hmatch hpath
        rw [show globSegs segMatch [q] [n] =
          (segMatch q n && globSegs segMatch [] []) from
          globSegs_cons_cons _ _ _ _ hqne, globSegs_nil] at hmatch
        simp only [List.isEmpty_nil, Bool.and_true, Bool.and_eq_true] at hmatch
        rw [globAux_eq, if_pos hlast, List.mem_filter]
        have hfile : Entry.file n ∈ cd.children :=
          filePathsUnder_singleton_inv hpath
        refine ⟨mem_filterEntry_file_of_file hfile, ?_⟩
        show micromatchIsMatch (accPath es ++ (Entry.file n).name) (strJoin patterns) = true
        have hname : (Entry.file n).name = n := rfl
        rw [hname, accPath_strJoin]
        rw [micromatch_strJoin_bridge (by simp) ?hseg (by simp [hpat]) hps]
        case hseg =>
          intro s hs
          rcases List.mem_append.mp hs with hs | hs
          · exact hesns s hs
          · rw [List.mem_singleton] at hs
            exact hs ▸ hnns
        rw [hpat]
        apply globSegs_append_of_forall₂ hfa
        rw [globSegs_cons_cons _ _ _ _ hqne, globSegs_nil]
        simp [hmatch]
      | cons d ds2 =>
        rw [show (d :: ds2) ++ [n] = d :: (ds2 ++ [n]) from rfl] at hmatch
        rw [globSegs_cons_cons _ _ _ _ hqne, globSegs_nil] at hmatch
        simp at hmatch
    | cons q2 suf3 =>
      have hnotlast : pre.length ≠ patterns.length - 1 := by
        simp only [List.length_cons] at hlen
        omega
      by_cases hq : q = "**"
      · apply globAux_complete_star micromatchIsMatch patterns pre.length
          (hq ▸ hgetD) hnotlast ds cd (accPath es) n hpath
        have hconcat : accPath es ++ accPath ds ++ n = strJoin (es ++ ds ++ [n]) := by
          rw [← accPath_append, accPath_strJoin, List.append_assoc]
        rw [hconcat]
        rw [micromatch_strJoin_bridge ?hne ?hseg (by simp [hpat]) hps]
        case hne => simp
        case hseg =>
          intro s hs
          rcases List.mem_append.mp hs with hs | hs
          · rcases List.mem_append.mp hs with hs | hs
            · exact hesns s hs
            · exact hdsns s hs
          · rw [List.mem_singleton] at hs
            exact hs ▸ hnns
        rw [hpat, List.append_assoc]
        exact globSegs_append_of_forall₂ hfa hmatch
      · cases ds with
        | nil =>
          exfalso
          simp only [List.nil_append] at hmatch
          rw [show globSegs segMatch (q :: q2 :: suf3) [n] =
            (segMatch q n && globSegs segMatch (q2 :: suf3) []) from
            globSegs_cons_cons _ _ _ _ hq] at hmatch
          rw [Bool.and_eq_true] at hmatch
          have hall := globSegs_nil_right.mp hmatch.2
          have hlastmem : (q2 :: suf3).getLast (by simp) ∈ q2 :: suf3 :=
            List.getLast_mem _
          have : (q2 :: suf3).getLast (by simp) = "**" := hall _ hlastmem
          apply hlastne
          rw [hpat]
          have h1 : (pre ++ q :: q2 :: suf3).getLast? = (q2 :: suf3).getLast? := by
            rw [List.getLast?_append_cons, List.getLast?_cons_cons]
          rw [h1, List.getLast?_eq_getLast _ (by simp), this]
          rfl
        | cons d ds2 =>
          rw [show (d :: ds2) ++ [n] = d :: (ds2 ++ [n]) from rfl] at hmatch
          rw [globSegs_cons_cons _ _ _ _ hq, Bool.and_eq_true] at hmatch
          obtain ⟨hsm, hrest⟩ := hmatch
          obtain ⟨dcs, hdin, hsub⟩ :=
            filePathsUnder_cons_inv (by simpa using hpath) (by simp)
          have hdns : noSlashStr d = true := hdsns d (List.mem_cons_self d ds2)
          rw [globAux_eq, if_neg hnotlast, if_neg (hgetD ▸ hq)]
          rw [List.mem_flatten]
          refine ⟨globAux micromatchIsMatch patterns (pre.length + 1)
            (Entry.dir d dcs) (accPath es ++ (Entry.dir d dcs).name ++ "/"), ?_, ?_⟩
          · apply List.mem_map_of_mem
            rw [List.mem_filter]
            refine ⟨mem_filterEntry_dir_of_dir hdin, ?_⟩
            show micromatchIsMatch (Entry.dir d dcs).name
              (patterns.getD pre.length "") = true
            rw [hgetD]
            have hname : (Entry.dir d dcs).name = d := rfl
            rw [hname, micromatch_single_segment (hps q hqps) hdns hq]
            exact hsm
          · have hsz : sizeOf (Entry.dir d dcs) ≤ N := by
              have := Entry.sizeOf_lt_of_mem (c := cd)
                (e := Entry.dir d dcs) (by
                  exact mem_of_mem_filterEntry (mem_filterEntry_dir_of_dir hdin))
              omega
            have happly := ih (Entry.dir d dcs) hsz (pre ++ [q]) (q2 :: suf3)
              (es ++ [d]) ds2 n (by rw [hpat, List.append_assoc]; rfl) (by simp)
              (forall₂_append_single hfa hsm)
              (by
                intro s hs
                rcases List.mem_append.mp hs with hs | hs
                · exact hesns s hs
                · rw [List.mem_singleton] at hs
                  exact hs ▸ hdns)
              (fun s hs => hdsns s (List.mem_cons_of_mem d hs)) hnns hsub hrest
            have hlen2 : (pre ++ [q]).length = pre.length + 1 := by simp
            have hacc : accPath (es ++ [d]) =
                accPath es ++ (Entry.dir d dcs).name ++ "/" := by
              rw [accPath_append]
              have : (Entry.dir d dcs).name = d := rfl
              rw [this, accPath, accPath]
              simp [String.append_assoc]
            rw [hlen2, hacc] at happly
            exact happly

theorem String.empty_append_left (s : String) : "" ++ s = s := rfl

/-- Exactness of the public glob operation for patterns whose final
segment is not `**`: a file handle is returned precisely when some
reachable file path, joined with `/`, matches the original pattern
string under the modelled matcher. -/
theorem glob_exact_of_last_ne_star (pattern : String) (root : Entry)
    (hne : pattern ≠ "")
    (hlast : (strSplit pattern).getLast?.getD "" ≠ "**")
    (hwf : PathsNoSlash root) :
    ∀ e, e ∈ glob micromatchIsMatch pattern root ↔
      ∃ ds n, e = Entry.file n ∧ (ds ++ [n]) ∈ filePathsUnder root.children ∧
        micromatchIsMatch (strJoin (ds ++ [n])) pattern = true := by
  intro e
  rw [glob, if_neg hne]
  constructor
  · intro he
    obtain ⟨ds, n, rfl, hpath, hmatch⟩ :=
      globAux_sound micromatchIsMatch (strSplit pattern) (sizeOf root)
        root le_rfl 0 "" _ he
    refine ⟨ds, n, rfl, hpath, ?_⟩
    rw [strJoin_strSplit] at hmatch
    rw [← accPath_strJoin]
    rw [String.append_assoc, String.empty_append_left] at hmatch
    exact hmatch
  · rintro ⟨ds, n, rfl, hpath, hmatch⟩
    have hnoslash : ∀ s ∈ ds ++ [n], noSlashStr s = true := hwf _ hpath
    have hsegmatch : globSegs segMatch (strSplit pattern) (ds ++ [n]) = true := by
      rw [micromatchIsMatch, strSplit_strJoin (by simp) hnoslash] at hmatch
      exact hmatch
    have happly := globAux_complete (strSplit pattern)
      (fun q hq => noSlash_of_mem_strSplit hq) hlast (sizeOf root) root le_rfl
      [] (strSplit pattern) [] ds n rfl (strSplit_ne_nil pattern)
      List.Forall₂.nil (by simp)
      (fun s hs => hnoslash s (List.mem_append_left _ hs))
      (hnoslash n (List.mem_append_right _ (List.mem_singleton.mpr rfl)))
      hpath hsegmatch
    simpa [accPath] using happly

/-- A tool for discharging `PathsNoSlash` on concrete trees. -/
theorem pathsNoSlash_of_all {root : Entry}
    (h : (filePathsUnder root.children).all (fun pf => pf.all noSlashStr) = true) :
    PathsNoSlash root := by
  intro pf hpf s hs
  rw [List.all_eq_true] at h
  have h2 := h pf hpf
  rw [List.all_eq_true] at h2
  exact h2 s hs

/-- C2 (amended): for every non-empty pattern whose final `/`-segment is
not the recursive marker, and every tree whose entry names are free of
`/`, the glob operation returns exactly the set of file entries whose
accumulated relative path (`/`-joined) matches the original, unsplit
pattern string under the modelled external matcher.  The amendment
excludes patterns ending in `**`: there the `isLast` test fires before
the recursive-marker handling, so only direct files of the directories
aligned with the final segment are tested and deeper matching files are
missed (see the counterexample). -/
theorem glob_exact_set_nontrailing_star (pattern : String) (root : Entry)
    (hne : pattern ≠ "")
    (hlast : (strSplit pattern).getLast?.getD "" ≠ "**")
    (hwf : PathsNoSlash root) :
    ∀ e, e ∈ glob micromatchIsMatch pattern root ↔
      ∃ ds n, e = Entry.file n ∧ (ds ++ [n]) ∈ filePathsUnder root.children ∧
        micromatchIsMatch (strJoin (ds ++ [n])) pattern = true :=
  glob_exact_of_last_ne_star pattern root hne hlast hwf

/-- The tree showing C2 false as stated: root containing directory `d`
containing file `f`. -/
def starDemoRoot : Entry := Entry.dir "root" [Entry.dir "d" [Entry.file "f"]]

/-- Counterexample to C2 as stated: with the well-formed tree
`root/{d/{f}}` and the non-empty pattern `"**"`, the file at `d/f` has a
matching accumulated path (`**` matches any path), yet the glob
operation returns the empty list — with a trailing `**` the engine tests
only the direct files of the current directory and never descends. -/
theorem glob_trailing_star_misses_deep_files :
    PathsNoSlash starDemoRoot ∧
    (["d", "f"] ∈ filePathsUnder starDemoRoot.children ∧
     micromatchIsMatch (strJoin ["d", "f"]) "**" = true) ∧
    glob micromatchIsMatch "**" starDemoRoot = [] := by
  refine ⟨pathsNoSlash_of_all ?_, ⟨?_, by decide⟩, ?_⟩
  · simp only [starDemoRoot, Entry.children, filePathsUnder]
    decide
  · simp [starDemoRoot, Entry.children, filePathsUnder]
  · rw [glob, if_neg (by decide : ¬("**" = ""))]
    rw [globAux_eq, if_pos (by decide : 0 = (strSplit "**").length - 1)]
    simp [starDemoRoot, Entry.children, filterEntry, Entry.kind]

/-- Witness for the amended C2 at pattern `"*"` over a two-level tree:
the hypotheses are satisfiable and the characterization holds at the
file entry `x`. -/
theorem glob_exact_set_nontrailing_star_witness :
    (("*" : String) ≠ "" ∧ (strSplit "*").getLast?.getD "" ≠ "**" ∧
      PathsNoSlash (Entry.dir "r" [Entry.file "x", Entry.dir "s" [Entry.file "y"]])) ∧
    (Entry.file "x" ∈ glob micromatchIsMatch "*"
        (Entry.dir "r" [Entry.file "x", Entry.dir "s" [Entry.file "y"]]) ↔
      ∃ ds n, Entry.file "x" = Entry.file n ∧
        (ds ++ [n]) ∈ filePathsUnder
          (Entry.dir "r" [Entry.file "x", Entry.dir "s" [Entry.file "y"]]).children ∧
        micromatchIsMatch (strJoin (ds ++ [n])) "*" = true) :=
  ⟨⟨by decide, by decide,
    pathsNoSlash_of_all (by
      simp only [filePathsUnder, Entry.children]
      decide)⟩,
   glob_exact_set_nontrailing_star "*"
     (Entry.dir "r" [Entry.file "x", Entry.dir "s" [Entry.file "y"]])
     (by decide) (by decide)
     (pathsNoSlash_of_all (by
       simp only [filePathsUnder, Entry.children]
       decide))
     (Entry.file "x")⟩

/-- C3: for every non-empty pattern with no `**` segment and every tree
whose entry names are free of `/`, the glob result equals the set of
files whose full relative path (from the search root, `/`-joined)
matches the pattern under the modelled external matcher — no more, no
fewer. -/
theorem glob_no_recursive_marker_exact (pattern : String) (root : Entry)
    (hne : pattern ≠ "") (hnostar : "**" ∉ strSplit pattern)
    (hwf : PathsNoSlash root) :
    ∀ e, e ∈ glob micromatchIsMatch pattern root ↔
      ∃ ds n, e = Entry.file n ∧ (ds ++ [n]) ∈ filePathsUnder root.children ∧
        micromatchIsMatch (strJoin (ds ++ [n])) pattern = true := by
  apply glob_exact_of_last_ne_star pattern root hne ?_ hwf
  intro hcontra
  apply hnostar
  have hne2 := strSplit_ne_nil pattern
  rw [List.getLast?_eq_getLast _ hne2] at hcontra
  simp only [Option.getD_some] at hcontra
  exact hcontra ▸ List.getLast_mem hne2

/-- Witness for C3 at pattern `"s/y"` over a two-level tree: the
hypotheses are satisfiable and the characterization holds at the file
entry `y`. -/
theorem glob_no_recursive_marker_exact_witness :
    (("s/y" : String) ≠ "" ∧ "**" ∉ strSplit "s/y" ∧
      PathsNoSlash (Entry.dir "r" [Entry.file "x", Entry.dir "s" [Entry.file "y"]])) ∧
    (Entry.file "y" ∈ glob micromatchIsMatch "s/y"
        (Entry.dir "r" [Entry.file "x", Entry.dir "s" [Entry.file "y"]]) ↔
      ∃ ds n, Entry.file "y" = Entry.file n ∧
        (ds ++ [n]) ∈ filePathsUnder
          (Entry.dir "r" [Entry.file "x", Entry.dir "s" [Entry.file "y"]]).children ∧
        micromatchIsMatch (strJoin (ds ++ [n])) "s/y" = true) :=
  ⟨⟨by decide, by decide,
    pathsNoSlash_of_all (by
      simp only [filePathsUnder, Entry.children]
      decide)⟩,
   glob_no_recursive_marker_exact "s/y"
     (Entry.dir "r" [Entry.file "x", Entry.dir "s" [Entry.file "y"]])
     (by decide) (by decide)
     (pathsNoSlash_of_all (by
       simp only [filePathsUnder, Entry.children]
       decide))
     (Entry.file "y")⟩

end WebFs
